import Mathlib

/-!
Verification of the doctor-scheduling engine of `app.py` (Doctor Scheduler v8).

Shallow embedding conventions:
* A calendar date is a `Nat`: the number of days since a fixed Monday epoch,
  so `weekday d = d % 7` agrees with Python's `date.weekday()` (Monday = 0).
  Date arithmetic in the source (`timedelta(days=1)`, `(day - start).days`)
  becomes `Nat` arithmetic, and the `YYYY-MM-DD` string keys used for the
  unavailability sets are replaced by the dates themselves (`strftime` is
  injective on dates).
* Python dicts keyed by service or doctor name become functions or
  association lists; sets become lists with membership tests.
* The deque per-service rotation becomes a `List String`; `deque.rotate(-1)`
  (one step to the left) is `List.rotate · 1`.
* `sorted(...)` (Python's stable sort on strings, resp. on sort keys) is
  `List.insertionSort`, which is also a stable sort; the relevant inputs
  have pairwise-distinct sort keys, so any stable sort yields the same list.
* Fallible parsing (`raise ValueError` in `parse_basic`, caught by the
  route which returns an error response and no rows) is `Except String`.
-/

namespace DocSched

abbrev Doc := String
abbrev Svc := String

/-- A calendar date, as number of days since a fixed Monday epoch. -/
abbrev Day := Nat

/-- `date.weekday()`: Monday = 0 … Sunday = 6. -/
def weekday (d : Day) : Nat := d % 7

/-- `iter_workdays(start, end)` from `app.py`: all days `start ≤ d ≤ end`
whose weekday is Mon–Fri, in ascending order. -/
def workdays (s e : Day) : List Day :=
  ((List.range (e + 1 - s)).map (fun i => s + i)).filter (fun d => decide (weekday d < 5))

/-- Python's `str.strip()`: drop leading and trailing whitespace. -/
def pyStrip (s : String) : String :=
  ⟨((s.data.dropWhile Char.isWhitespace).reverse.dropWhile Char.isWhitespace).reverse⟩

/-- The request payload handed to `/generate` after form decoding: the keys of
the `full` dict built in `generate` (`app.py` lines 411-418), with dates
already structured.  `unavailable d day` is membership of `day` in doctor
`d`'s unavailable-date set, and `service_days_2wk` maps a service to its
(week-0 weekday set, week-1 weekday set). -/
structure Payload where
  start_date : Day
  end_date : Day
  services : List Svc
  doctors : List Doc
  unavailable : Doc → Day → Bool
  service_days_2wk : List (Svc × (List Nat × List Nat))

/-- `ScheduleConfig` from `app.py`. -/
structure ScheduleConfig where
  start_date : Day
  end_date : Day
  services : List Svc
  doctors : List Doc
  unavailable : Doc → Day → Bool
  service_days_2wk : List (Svc × (List Nat × List Nat))

/-- `parse_basic` from `app.py`: validate `end ≥ start`, strip and drop blank
service and doctor names, and reject empty lists. -/
def parse_basic (p : Payload) :
    Except String (Day × Day × List Svc × List Doc) :=
  if p.end_date < p.start_date then
    .error "end_date must be on/after start_date"
  else
    let services := (p.services.map pyStrip).filter (fun s => s ≠ "")
    let doctors := (p.doctors.map pyStrip).filter (fun d => d ≠ "")
    if services.isEmpty then .error "Please add at least one service."
    else if doctors.isEmpty then .error "Please add at least one doctor."
    else .ok (p.start_date, p.end_date, services, doctors)

/-- `parse_config` from `app.py`, specialised to the `full` dict built by the
`/generate` route (which never carries the legacy `service_days` key, so the
weekly fallback set is the default `[0,1,2,3,4]`): normalise the two-week
weekday sets over the validated service list. -/
def parse_config (p : Payload) : Except String ScheduleConfig :=
  (parse_basic p).map (fun q =>
    { start_date := q.1
      end_date := q.2.1
      services := q.2.2.1
      doctors := q.2.2.2
      unavailable := p.unavailable
      service_days_2wk := q.2.2.1.map (fun svc =>
        (svc, ((p.service_days_2wk.lookup svc).getD ([0,1,2,3,4], [0,1,2,3,4])))) })

/-- The week-indexed set selection `{0: w1, 1: w2}.get(week_ix, set([0,1,2,3,4]))`
from `app.py` line 436. -/
def weekSet (ws : List Nat × List Nat) (w : Nat) : List Nat :=
  if w = 0 then ws.1 else if w = 1 then ws.2 else [0, 1, 2, 3, 4]

/-- `cfg.service_days_2wk.get(svc, {}).get(week_ix, set([0,1,2,3,4]))` followed
by the membership test `dow in …` (`app.py` line 436). -/
def isOn (sd2 : List (Svc × (List Nat × List Nat))) (svc : Svc) (dow w : Nat) : Bool :=
  match sd2.lookup svc with
  | some ws => decide (dow ∈ weekSet ws w)
  | none => decide (dow ∈ [0, 1, 2, 3, 4])

/-- `week_ix = ((day - start_d).days // 7) % 2` (`app.py` line 430). -/
def weekIx (start d : Day) : Nat := ((d - start) / 7) % 2

/-- The cadence decision for one service on one day: `on` at `app.py` line 436. -/
def cadenceOn (cfg : ScheduleConfig) (day : Day) (svc : Svc) : Bool :=
  isOn cfg.service_days_2wk svc (weekday day) (weekIx cfg.start_date day)

/-- State threaded through the inner `for svc in services` loop of `generate`:
the day's `used_doctors`, the per-service `rotations`, and `assigned_today`
(kept as the list of `(service, outcome)` entries in processing order). -/
structure SvcState where
  used : List Doc
  rots : Svc → List Doc
  log : List (Svc × String)

/-- The loop `while rot[0] != chosen: rot.rotate(-1)` (`app.py` line 449-450),
with explicit fuel; the source always calls it with `chosen` present in `rot`,
in which case `rot.length` steps of fuel suffice. -/
def rotateToFront (chosen : Doc) : Nat → List Doc → List Doc
  | 0, rot => rot
  | fuel + 1, rot =>
    if rot.head? = some chosen then rot else rotateToFront chosen fuel (rot.rotate 1)

/-- The rotation advance of `generate` (`app.py` lines 449-451): left-rotate
until `chosen` is at the front, then one further left rotation. -/
def advance (rot : List Doc) (chosen : Doc) : List Doc :=
  (rotateToFront chosen rot.length rot).rotate 1

/-- `candidates = [(doc, idx) for idx, doc in enumerate(rot) if doc in
available_today and doc not in used_doctors]` (`app.py` line 441). -/
def candidatesOf (rot : List Doc) (avail used : List Doc) : List (Doc × Nat) :=
  (rot.enum.map (fun p => (p.2, p.1))).filter
    (fun c => decide (c.1 ∈ avail ∧ c.1 ∉ used))

/-- The sort order of `candidates.sort(key=lambda t: (-flex_counts[t[0]], t[1]))`
(`app.py` line 445): `a` comes no later than `b` iff `a`'s key
`(-flex a, idx a)` is lexicographically at most `b`'s. -/
def sortKey (flex : Doc → Nat) (a b : Doc × Nat) : Prop :=
  flex b.1 < flex a.1 ∨ (flex a.1 = flex b.1 ∧ a.2 ≤ b.2)

instance sortKeyDecidable (flex : Doc → Nat) : DecidableRel (sortKey flex) :=
  fun a b => by unfold sortKey; infer_instance

/-- One iteration of the `for svc in services` loop of `generate`
(`app.py` lines 435-451). -/
def processService (cfg : ScheduleConfig) (day : Day) (avail : List Doc)
    (flex : Doc → Nat) (st : SvcState) (svc : Svc) : SvcState :=
  if cadenceOn cfg day svc then
    let rot := st.rots svc
    match List.insertionSort (sortKey flex) (candidatesOf rot avail st.used) with
    | [] => { st with log := st.log ++ [(svc, "UNFILLED")] }
    | c :: _ =>
      { used := st.used ++ [c.1]
        rots := fun s => if s = svc then advance rot c.1 else st.rots s
        log := st.log ++ [(svc, c.1)] }
  else { st with log := st.log ++ [(svc, "OFF")] }

/-- State carried from one day to the next: `flex_counts` and `rotations`. -/
structure RunState where
  flex : Doc → Nat
  rots : Svc → List Doc

/-- `flex_counts = {d: 0 …}`, `rotations = {svc: deque(doctors) …}`
(`app.py` lines 423-424). -/
def initState (cfg : ScheduleConfig) : RunState :=
  { flex := fun _ => 0, rots := fun _ => cfg.doctors }

/-- `available_today` (`app.py` line 431), as the sublist of `cfg.doctors`
not unavailable on `day`. -/
def availableToday (cfg : ScheduleConfig) (day : Day) : List Doc :=
  cfg.doctors.filter (fun d => !(cfg.unavailable d day))

/-- The full inner service loop for one day. -/
def dayFold (cfg : ScheduleConfig) (st : RunState) (day : Day) : SvcState :=
  cfg.services.foldl (processService cfg day (availableToday cfg day) st.flex)
    { used := [], rots := st.rots, log := [] }

/-- The doctors chosen for a service on `day` (the day's `used_doctors`),
in service-processing order. -/
def dayUsed (cfg : ScheduleConfig) (st : RunState) (day : Day) : List Doc :=
  (dayFold cfg st day).used

/-- `flexible_today = sorted(list(available_today - used_doctors))`
(`app.py` line 453): the set difference (duplicate names collapse) sorted in
ascending string order. -/
def flexibleToday (cfg : ScheduleConfig) (st : RunState) (day : Day) : List Doc :=
  List.insertionSort (fun a b => a ≤ b)
    (((availableToday cfg day).filter (fun d => decide (d ∉ dayUsed cfg st day))).dedup)

/-- One output row (`app.py` lines 457-459): the date, the per-service
outcomes in processing order, and the day's flexible-doctor list.  The
`date_label` string and the dict view of the outcomes carry no further
information and are omitted. -/
structure DayRow where
  date : Day
  log : List (Svc × String)
  flexible : List Doc

/-- One iteration of the `for day in iter_workdays(...)` loop of `generate`
(`app.py` lines 427-460): the updated run state and the emitted row.
`for doc in flexible_today: flex_counts[doc] += 1` is the fold. -/
def processDay (cfg : ScheduleConfig) (st : RunState) (day : Day) :
    RunState × DayRow :=
  let st1 := dayFold cfg st day
  let flexToday := flexibleToday cfg st day
  ({ flex := flexToday.foldl (fun f d => fun x => if x = d then f x + 1 else f x) st.flex
     rots := st1.rots },
   { date := day, log := st1.log, flexible := flexToday })

/-- The day loop of `generate`, returning the final state and the rows. -/
def runDays (cfg : ScheduleConfig) (st : RunState) :
    List Day → RunState × List DayRow
  | [] => (st, [])
  | d :: ds =>
    let p := processDay cfg st d
    let r := runDays cfg p.1 ds
    (r.1, p.2 :: r.2)

/-- The `/generate` route (`app.py` lines 384-464): parse and validate the
configuration, then run the scheduling loop; a `ValueError` becomes an error
response carrying the message and no rows. -/
def generate (p : Payload) : Except String (List DayRow) :=
  (parse_config p).map (fun cfg =>
    (runDays cfg (initState cfg) (workdays cfg.start_date cfg.end_date)).2)

/-- Flexible counts after the first `n` working days of a run (for stating
facts about intermediate fairness counters). -/
def flexAfter (p : Payload) (n : Nat) (d : Doc) : Option Nat :=
  (parse_config p).toOption.map (fun cfg =>
    (runDays cfg (initState cfg)
      ((workdays cfg.start_date cfg.end_date).take n)).1.flex d)

/-- Modelled from the spec: "remove chosenDoctor from wherever it sits and
append it to the end" (§4.3 `advance`). -/
def removeAndAppend (rot : List Doc) (chosen : Doc) : List Doc :=
  rot.erase chosen ++ [chosen]

/-- Modelled from the spec: the optional per-date override map of the Cadence
Resolver (§4.2).  v8 of the code has no per-date override mechanism (the
module docstring records that per-date overrides were removed), so the
program's override map is empty. -/
def perDateOverrides : List ((Day × Svc) × Bool) := []

/-- Modelled from the spec: `cadence[service][cadenceWeek]`, the per-service
weekday set of the cadence week, with the Mon–Fri default for a service
without explicit configuration (§4.2). -/
def cadenceSets (sd2 : List (Svc × (List Nat × List Nat))) (svc : Svc) (w : Nat) :
    List Nat :=
  match sd2.lookup svc with
  | some ws => if w = 0 then ws.1 else ws.2
  | none => [0, 1, 2, 3, 4]

/-- Modelled from the spec: the Cadence Resolver algorithm (§4.2) — "if an
explicit per-date override exists for (date, service), return it.  Otherwise
return `weekday ∈ cadence[service][cadenceWeek]`", with cadence week
`((date − start) in whole weeks) mod 2`. -/
def isOnSpec (ov : List ((Day × Svc) × Bool))
    (sd2 : List (Svc × (List Nat × List Nat))) (start : Day) (svc : Svc)
    (date : Day) : Bool :=
  match ov.lookup (date, svc) with
  | some b => b
  | none => decide (weekday date ∈ cadenceSets sd2 svc (weekIx start date))

/-! ## Helper lemmas -/

theorem rotateToFront_eq (chosen : Doc) :
    ∀ (fuel : Nat) (rot : List Doc), chosen ∈ rot →
      rot.indexOf chosen ≤ fuel →
      rotateToFront chosen fuel rot = rot.rotate (rot.indexOf chosen) := by
  intro fuel
  induction fuel with
  | zero =>
    intro rot hmem hle
    match rot, hmem with
    | a :: t, hmem =>
      have h0 : (a :: t).indexOf chosen = 0 := Nat.le_zero.mp hle
      have ha : a = chosen := by
        by_contra hne
        rw [List.indexOf_cons_ne _ (by exact hne)] at h0
        exact Nat.succ_ne_zero _ h0
      subst ha
      simp [rotateToFront, h0]
  | succ fuel ih =>
    intro rot hmem hle
    match rot, hmem with
    | a :: t, hmem =>
      by_cases ha : a = chosen
      · subst ha
        simp [rotateToFront, List.indexOf_cons_self]
      · have hct : chosen ∈ t := by
          cases List.mem_cons.mp hmem with
          | inl h => exact absurd h.symm ha
          | inr h => exact h
        have hidx : (a :: t).indexOf chosen = (t.indexOf chosen) + 1 :=
          List.indexOf_cons_ne _ ha
        have hhead : ¬((a :: t).head? = some chosen) := by
          simp only [List.head?_cons]
          intro hcon
          exact ha (Option.some.inj hcon)
        have hrot1 : (a :: t).rotate 1 = t ++ [a] := by
          simpa using List.rotate_cons_succ t a 0
        have hidx' : (t ++ [a]).indexOf chosen = t.indexOf chosen :=
          List.indexOf_append_of_mem hct
        have hle' : (t ++ [a]).indexOf chosen ≤ fuel := by
          rw [hidx']; omega
        have hmem' : chosen ∈ t ++ [a] := List.mem_append_left _ hct
        calc rotateToFront chosen (fuel + 1) (a :: t)
            = rotateToFront chosen fuel ((a :: t).rotate 1) := by
              simp only [rotateToFront]
              rw [if_neg hhead]
          _ = rotateToFront chosen fuel (t ++ [a]) := by rw [hrot1]
          _ = (t ++ [a]).rotate ((t ++ [a]).indexOf chosen) := ih _ hmem' hle'
          _ = (t ++ [a]).rotate (t.indexOf chosen) := by rw [hidx']
          _ = (a :: t).rotate ((a :: t).indexOf chosen) := by
              rw [hidx, List.rotate_cons_succ]

theorem rotateToFront_head (chosen : Doc) :
    ∀ (fuel : Nat) (rot : List Doc), chosen ∈ rot →
      rot.indexOf chosen ≤ fuel →
      (rotateToFront chosen fuel rot).head? = some chosen := by
  intro fuel
  induction fuel with
  | zero =>
    intro rot hmem hle
    match rot, hmem with
    | a :: t, hmem =>
      have h0 : (a :: t).indexOf chosen = 0 := Nat.le_zero.mp hle
      have ha : a = chosen := by
        by_contra hne
        rw [List.indexOf_cons_ne _ (by exact hne)] at h0
        exact Nat.succ_ne_zero _ h0
      subst ha
      simp [rotateToFront]
  | succ fuel ih =>
    intro rot hmem hle
    match rot, hmem with
    | a :: t, hmem =>
      by_cases ha : a = chosen
      · subst ha
        simp [rotateToFront]
      · have hct : chosen ∈ t := by
          cases List.mem_cons.mp hmem with
          | inl h => exact absurd h.symm ha
          | inr h => exact h
        have hidx : (a :: t).indexOf chosen = (t.indexOf chosen) + 1 :=
          List.indexOf_cons_ne _ ha
        have hhead : ¬((a :: t).head? = some chosen) := by
          simp only [List.head?_cons]
          intro hcon
          exact ha (Option.some.inj hcon)
        have hrot1 : (a :: t).rotate 1 = t ++ [a] := by
          simpa using List.rotate_cons_succ t a 0
        have hidx' : (t ++ [a]).indexOf chosen = t.indexOf chosen :=
          List.indexOf_append_of_mem hct
        have hle' : (t ++ [a]).indexOf chosen ≤ fuel := by
          rw [hidx']; omega
        have hmem' : chosen ∈ t ++ [a] := List.mem_append_left _ hct
        have hstep : rotateToFront chosen (fuel + 1) (a :: t)
            = rotateToFront chosen fuel (t ++ [a]) := by
          simp only [rotateToFront]
          rw [if_neg hhead, hrot1]
        rw [hstep]
        exact ih _ hmem' hle'

theorem advance_eq_rotate (rot : List Doc) (chosen : Doc) (h : chosen ∈ rot) :
    advance rot chosen = rot.rotate (rot.indexOf chosen + 1) := by
  have hlt : rot.indexOf chosen < rot.length := List.indexOf_lt_length.mpr h
  unfold advance
  rw [rotateToFront_eq chosen rot.length rot h (Nat.le_of_lt hlt),
    List.rotate_rotate]

theorem advance_getLast (rot : List Doc) (chosen : Doc) (h : chosen ∈ rot) :
    (advance rot chosen).getLast? = some chosen := by
  have hlt : rot.indexOf chosen < rot.length := List.indexOf_lt_length.mpr h
  have hhead : (rotateToFront chosen rot.length rot).head? = some chosen :=
    rotateToFront_head chosen rot.length rot h (Nat.le_of_lt hlt)
  unfold advance
  match hr : rotateToFront chosen rot.length rot with
  | [] => rw [hr] at hhead; simp at hhead
  | a :: t =>
    rw [hr] at hhead
    simp only [List.head?_cons, Option.some.injEq] at hhead
    subst hhead
    have : (a :: t).rotate 1 = t ++ [a] := by
      simpa using List.rotate_cons_succ t a 0
    rw [this, List.getLast?_concat]

/-! ## Claim C1 -/

/-- Claim C1 (counterexample): on rotation sequence `["A","B","C"]` with chosen
doctor `"B"`, the advance operation of the code (left-rotate until `"B"` is at
position 0, then one further rotation) yields `["C","A","B"]`, while removing
`"B"` and appending it to the end yields `["A","C","B"]`; the relative order of
`"A"` and `"C"` is not preserved, so the two operations differ. -/
theorem claim_C1_counterexample :
    advance ["A", "B", "C"] "B" ≠ removeAndAppend ["A", "B", "C"] "B" := by
  decide

/-- Claim C1 (amended): for every rotation sequence and every doctor in it, the
advance operation implemented as a left-rotation until the chosen doctor
reaches position 0 followed by one further rotation step yields the left
rotation of the sequence by (first index of the chosen doctor + 1); the chosen
doctor becomes the last element, and the cyclic (not linear) order of the
other doctors is preserved.  It does not in general coincide with removing the
chosen doctor and appending it to the end. -/
theorem claim_C1_amended (rot : List Doc) (chosen : Doc) (h : chosen ∈ rot) :
    advance rot chosen = rot.rotate (rot.indexOf chosen + 1) ∧
    (advance rot chosen).getLast? = some chosen :=
  ⟨advance_eq_rotate rot chosen h, advance_getLast rot chosen h⟩

/-- Witness for C1: the amended statement evaluated on the concrete rotation
`["A","B","C"]` with chosen doctor `"B"`. -/
theorem claim_C1_witness :
    ("B" ∈ (["A", "B", "C"] : List Doc)) ∧
    advance ["A", "B", "C"] "B"
      = (["A", "B", "C"] : List Doc).rotate
          ((["A", "B", "C"] : List Doc).indexOf "B" + 1) ∧
    (advance ["A", "B", "C"] "B").getLast? = some "B" :=
  ⟨by decide, (claim_C1_amended ["A", "B", "C"] "B" (by decide)).1,
    (claim_C1_amended ["A", "B", "C"] "B" (by decide)).2⟩

/-! ## Claim C3 -/

/-- Claim C3: for every service, date and run start date, the program's
cadence decision agrees with the spec's Cadence Resolver: it returns the
explicit per-date override for (date, service) when one exists (the program's
override map is empty, so this clause is vacuous) and otherwise returns
whether the weekday lies in the service's weekday set for cadence week
`w = ((date − start) in whole weeks) mod 2`; the start date always falls in
week 0. -/
theorem claim_C3 :
    (∀ (cfg : ScheduleConfig) (day : Day) (svc : Svc),
      cadenceOn cfg day svc
        = isOnSpec perDateOverrides cfg.service_days_2wk cfg.start_date svc day)
    ∧ (∀ s : Day, weekIx s s = 0) := by
  constructor
  · intro cfg day svc
    have hw : weekIx cfg.start_date day = 0 ∨ weekIx cfg.start_date day = 1 :=
      Nat.mod_two_eq_zero_or_one _
    show cadenceOn cfg day svc
        = isOnSpec [] cfg.service_days_2wk cfg.start_date svc day
    unfold cadenceOn isOnSpec isOn cadenceSets
    show _ = decide (weekday day ∈ _)
    rcases hl : List.lookup svc cfg.service_days_2wk with _ | ws
    · rfl
    · cases hw with
      | inl h => rw [h]; simp [weekSet]
      | inr h => rw [h]; simp [weekSet]
  · intro s
    simp [weekIx]

/-! ## Claim C4 -/

instance sortKeyTotal (flex : Doc → Nat) : IsTotal (Doc × Nat) (sortKey flex) := by
  constructor
  intro a b
  unfold sortKey
  rcases Nat.lt_trichotomy (flex a.1) (flex b.1) with h | h | h
  · right; left; exact h
  · rcases Nat.le_total a.2 b.2 with h2 | h2
    · left; right; exact ⟨h, h2⟩
    · right; right; exact ⟨h.symm, h2⟩
  · left; left; exact h

instance sortKeyTrans (flex : Doc → Nat) : IsTrans (Doc × Nat) (sortKey flex) := by
  constructor
  intro a b c hab hbc
  unfold sortKey at *
  omega

theorem insertionSort_head_min (flex : Doc → Nat) (l : List (Doc × Nat))
    (best : Doc × Nat) (rest : List (Doc × Nat))
    (h : List.insertionSort (sortKey flex) l = best :: rest) :
    best ∈ l ∧ ∀ x ∈ l, sortKey flex best x := by
  have hperm := List.perm_insertionSort (sortKey flex) l
  rw [h] at hperm
  constructor
  · exact hperm.mem_iff.mp (List.mem_cons_self _ _)
  · intro x hx
    have hx' : x ∈ best :: rest := hperm.mem_iff.mpr hx
    have hs := List.sorted_insertionSort (sortKey flex) l
    rw [h] at hs
    rcases List.mem_cons.mp hx' with rfl | hxr
    · right; exact ⟨rfl, Nat.le_refl _⟩
    · exact List.rel_of_sorted_cons hs x hxr

/-- Claim C4: for every day and every ON service with a non-empty eligible
candidate set, the chosen doctor is the candidate minimizing the strict total
order `(−flexibleCount, rotationIndex)` ascending — i.e. it maximizes the
current flexible count, with ties broken by smallest index in the service's
current rotation order — and the service records that doctor as its outcome
and marks them used. -/
theorem claim_C4 (cfg : ScheduleConfig) (day : Day) (avail : List Doc)
    (flex : Doc → Nat) (st : SvcState) (svc : Svc) (c : Doc × Nat)
    (cs : List (Doc × Nat))
    (hOn : cadenceOn cfg day svc = true)
    (hc : candidatesOf (st.rots svc) avail st.used = c :: cs) :
    ∃ best rest,
      List.insertionSort (sortKey flex) (candidatesOf (st.rots svc) avail st.used)
        = best :: rest ∧
      best ∈ candidatesOf (st.rots svc) avail st.used ∧
      (∀ x ∈ candidatesOf (st.rots svc) avail st.used,
        flex x.1 ≤ flex best.1 ∧ (flex x.1 = flex best.1 → best.2 ≤ x.2)) ∧
      (processService cfg day avail flex st svc).log = st.log ++ [(svc, best.1)] ∧
      (processService cfg day avail flex st svc).used = st.used ++ [best.1] := by
  rcases hL : List.insertionSort (sortKey flex) (candidatesOf (st.rots svc) avail st.used)
    with _ | ⟨best, rest⟩
  · exfalso
    have hperm := List.perm_insertionSort (sortKey flex)
      (candidatesOf (st.rots svc) avail st.used)
    rw [hL, hc] at hperm
    exact absurd hperm.length_eq (by simp)
  · obtain ⟨hmem, hmin⟩ := insertionSort_head_min flex _ best rest hL
    refine ⟨best, rest, rfl, hmem, ?_, ?_, ?_⟩
    · intro x hx
      have := hmin x hx
      unfold sortKey at this
      constructor
      · omega
      · intro he; omega
    · simp only [processService, hOn, if_true, hL]
    · simp only [processService, hOn, if_true, hL]

/-- Witness for C4: concrete one-service, two-doctor state with both doctors
eligible; the theorem applies and names the chosen doctor. -/
theorem claim_C4_witness :
    ∃ best rest,
      List.insertionSort (sortKey (fun _ => 0))
        (candidatesOf ((⟨[], fun _ => ["A", "B"], []⟩ : SvcState).rots "S") ["A", "B"]
          (⟨[], fun _ => ["A", "B"], []⟩ : SvcState).used)
        = best :: rest ∧
      best ∈ candidatesOf ((⟨[], fun _ => ["A", "B"], []⟩ : SvcState).rots "S") ["A", "B"]
          (⟨[], fun _ => ["A", "B"], []⟩ : SvcState).used ∧
      (∀ x ∈ candidatesOf ((⟨[], fun _ => ["A", "B"], []⟩ : SvcState).rots "S") ["A", "B"]
          (⟨[], fun _ => ["A", "B"], []⟩ : SvcState).used,
        (fun _ => 0 : Doc → Nat) x.1 ≤ (fun _ => 0 : Doc → Nat) best.1 ∧
          ((fun _ => 0 : Doc → Nat) x.1 = (fun _ => 0 : Doc → Nat) best.1 → best.2 ≤ x.2)) ∧
      (processService
          ⟨0, 0, ["S"], ["A", "B"], fun _ _ => false, [("S", ([0,1,2,3,4], [0,1,2,3,4]))]⟩
          0 ["A", "B"] (fun _ => 0) ⟨[], fun _ => ["A", "B"], []⟩ "S").log
        = (⟨[], fun _ => ["A", "B"], []⟩ : SvcState).log ++ [("S", best.1)] ∧
      (processService
          ⟨0, 0, ["S"], ["A", "B"], fun _ _ => false, [("S", ([0,1,2,3,4], [0,1,2,3,4]))]⟩
          0 ["A", "B"] (fun _ => 0) ⟨[], fun _ => ["A", "B"], []⟩ "S").used
        = (⟨[], fun _ => ["A", "B"], []⟩ : SvcState).used ++ [best.1] :=
  claim_C4
    ⟨0, 0, ["S"], ["A", "B"], fun _ _ => false, [("S", ([0,1,2,3,4], [0,1,2,3,4]))]⟩
    0 ["A", "B"] (fun _ => 0) ⟨[], fun _ => ["A", "B"], []⟩ "S" ("A", 0) [("B", 1)]
    (by decide) (by decide)

/-! ## Claim C5 -/

theorem processService_used_cases (cfg : ScheduleConfig) (day : Day)
    (avail : List Doc) (flex : Doc → Nat) (st : SvcState) (svc : Svc) :
    (processService cfg day avail flex st svc).used = st.used ∨
    ∃ d, d ∉ st.used ∧
      (processService cfg day avail flex st svc).used = st.used ++ [d] := by
  by_cases hOn : cadenceOn cfg day svc
  · rcases hL : List.insertionSort (sortKey flex)
      (candidatesOf (st.rots svc) avail st.used) with _ | ⟨c, rest⟩
    · left
      simp only [processService, hOn, if_true, hL]
    · right
      refine ⟨c.1, ?_, ?_⟩
      · have hcmem : c ∈ candidatesOf (st.rots svc) avail st.used :=
          (List.perm_insertionSort (sortKey flex) _).subset
            (hL ▸ List.mem_cons_self c rest)
        unfold candidatesOf at hcmem
        exact (of_decide_eq_true (List.mem_filter.mp hcmem).2).2
      · simp only [processService, hOn, if_true, hL]
  · left
    simp [processService, hOn]

theorem foldl_used_nodup (cfg : ScheduleConfig) (day : Day) (avail : List Doc)
    (flex : Doc → Nat) :
    ∀ (svcs : List Svc) (st : SvcState), st.used.Nodup →
      ((svcs.foldl (processService cfg day avail flex) st).used).Nodup := by
  intro svcs
  induction svcs with
  | nil => intro st h; exact h
  | cons s ss ih =>
    intro st h
    simp only [List.foldl_cons]
    apply ih
    rcases processService_used_cases cfg day avail flex st s with heq | ⟨d, hd, heq⟩
    · rw [heq]; exact h
    · rw [heq]
      simp [List.nodup_append, h, hd]

/-- Claim C5: for every run and every day, the doctors chosen for the day's
services (the day's `used_doctors`, in service-processing order) are pairwise
distinct — a doctor serves at most one service per day, so no doctor name
appears as the assigned outcome of two services in a day's result. -/
theorem claim_C5 (cfg : ScheduleConfig) (st : RunState) (day : Day) :
    (dayUsed cfg st day).Nodup := by
  unfold dayUsed dayFold
  exact foldl_used_nodup cfg day (availableToday cfg day) st.flex
    cfg.services { used := [], rots := st.rots, log := [] } List.nodup_nil

/-! ## Claim C6 -/

theorem foldl_bump_nodup :
    ∀ (l : List Doc), l.Nodup → ∀ (f : Doc → Nat) (d : Doc),
      (l.foldl (fun f d => fun x => if x = d then f x + 1 else f x) f) d
        = f d + (if d ∈ l then 1 else 0) := by
  intro l
  induction l with
  | nil => intro _ f d; simp
  | cons a t ih =>
    intro hnd f d
    have ha : a ∉ t := (List.nodup_cons.mp hnd).1
    have ht : t.Nodup := (List.nodup_cons.mp hnd).2
    simp only [List.foldl_cons]
    rw [ih ht]
    by_cases hda : d = a
    · subst hda
      have hdt : d ∉ t := ha
      simp [hdt]
    · simp only [if_neg hda, List.mem_cons]
      have : (d ∈ t ∨ d = a) ↔ d ∈ t := by
        constructor
        · intro h; rcases h with h | h
          · exact h
          · exact absurd h hda
        · exact Or.inl
      by_cases hdt : d ∈ t
      · simp [hdt, hda]
      · simp [hdt, hda]

theorem flexibleToday_nodup (cfg : ScheduleConfig) (st : RunState) (day : Day) :
    (flexibleToday cfg st day).Nodup :=
  (List.perm_insertionSort _ _).symm.nodup (List.nodup_dedup _)

theorem mem_flexibleToday (cfg : ScheduleConfig) (st : RunState) (day : Day)
    (d : Doc) :
    d ∈ flexibleToday cfg st day
      ↔ d ∈ availableToday cfg day ∧ d ∉ dayUsed cfg st day := by
  unfold flexibleToday
  rw [(List.perm_insertionSort _ _).mem_iff, List.mem_dedup, List.mem_filter]
  simp

/-- Claim C6: for every run state and day, each doctor's flexible count is
non-decreasing across the day, and increases by exactly 1 if the doctor is
available that day but assigned to no service (not among the day's chosen
doctors), and by 0 on every other day. -/
theorem claim_C6 (cfg : ScheduleConfig) (st : RunState) (day : Day) (d : Doc) :
    st.flex d ≤ (processDay cfg st day).1.flex d ∧
    (processDay cfg st day).1.flex d
      = st.flex d +
        (if d ∈ availableToday cfg day ∧ d ∉ dayUsed cfg st day then 1 else 0) := by
  have h1 : (processDay cfg st day).1.flex
      = (flexibleToday cfg st day).foldl
          (fun f d => fun x => if x = d then f x + 1 else f x) st.flex := rfl
  have heq : (processDay cfg st day).1.flex d
      = st.flex d + (if d ∈ flexibleToday cfg st day then 1 else 0) := by
    rw [h1, foldl_bump_nodup _ (flexibleToday_nodup cfg st day) st.flex d]
  constructor
  · rw [heq]
    split <;> omega
  · rw [heq]
    congr 1
    exact if_congr (mem_flexibleToday cfg st day d) rfl rfl

/-! ## Claim C7 -/

/-- Claim C7: for every input with end date before start date, or an empty
service list, or an empty doctor list, the run fails with a descriptive
configuration error before any day is processed and produces no rows (the
result is an `error`, which carries no `DayRow`). -/
theorem claim_C7 (p : Payload)
    (h : p.end_date < p.start_date ∨ p.services = [] ∨ p.doctors = []) :
    ∃ msg, generate p = .error msg := by
  simp only [generate, parse_config, parse_basic]
  by_cases hlt : p.end_date < p.start_date
  · rw [if_pos hlt]
    exact ⟨_, rfl⟩
  · rw [if_neg hlt]
    rcases h with h | h | h
    · exact absurd h hlt
    · rw [h]
      exact ⟨_, rfl⟩
    · rw [h]
      by_cases hs : ((p.services.map pyStrip).filter (fun s => s ≠ "")).isEmpty
      · rw [if_pos hs]
        exact ⟨_, rfl⟩
      · rw [if_neg hs]
        exact ⟨_, rfl⟩

/-- Witness for C7: a concrete payload whose end date precedes its start date
is rejected with an error and yields no rows. -/
theorem claim_C7_witness :
    ∃ msg,
      generate
        { start_date := 7, end_date := 0, services := ["S"], doctors := ["A"],
          unavailable := fun _ _ => false,
          service_days_2wk := [("S", ([0,1,2,3,4], [0,1,2,3,4]))] }
        = .error msg :=
  claim_C7 _ (Or.inl (by decide))

/-! ## Claim C8 -/

theorem processService_rots_frame (cfg : ScheduleConfig) (day : Day)
    (avail : List Doc) (flex : Doc → Nat) (st : SvcState) (s svc : Svc)
    (hOff : cadenceOn cfg day svc = false) :
    (processService cfg day avail flex st s).rots svc = st.rots svc := by
  by_cases hs : s = svc
  · subst hs
    simp [processService, hOff]
  · by_cases hOn : cadenceOn cfg day s
    · rcases hL : List.insertionSort (sortKey flex)
        (candidatesOf (st.rots s) avail st.used) with _ | ⟨c, rest⟩
      · simp only [processService, hOn, if_true, hL]
      · simp only [processService, hOn, if_true, hL]
        exact if_neg (fun hc => hs hc.symm)
    · simp [processService, hOn]

theorem processService_log_extend (cfg : ScheduleConfig) (day : Day)
    (avail : List Doc) (flex : Doc → Nat) (st : SvcState) (s : Svc) :
    ∃ t, (processService cfg day avail flex st s).log = st.log ++ t := by
  by_cases hOn : cadenceOn cfg day s
  · rcases hL : List.insertionSort (sortKey flex)
      (candidatesOf (st.rots s) avail st.used) with _ | ⟨c, rest⟩
    · exact ⟨[(s, "UNFILLED")], by simp only [processService, hOn, if_true, hL]⟩
    · exact ⟨[(s, c.1)], by simp only [processService, hOn, if_true, hL]⟩
  · exact ⟨[(s, "OFF")], by simp [processService, hOn]⟩

theorem processService_log_entry (cfg : ScheduleConfig) (day : Day)
    (avail : List Doc) (flex : Doc → Nat) (st : SvcState) (s : Svc) :
    ∃ o, (processService cfg day avail flex st s).log = st.log ++ [(s, o)] ∧
      (cadenceOn cfg day s = false → o = "OFF") := by
  by_cases hOn : cadenceOn cfg day s
  · rcases hL : List.insertionSort (sortKey flex)
      (candidatesOf (st.rots s) avail st.used) with _ | ⟨c, rest⟩
    · exact ⟨"UNFILLED", by simp only [processService, hOn, if_true, hL],
        fun hc => absurd hOn (by simp [hc])⟩
    · exact ⟨c.1, by simp only [processService, hOn, if_true, hL],
        fun hc => absurd hOn (by simp [hc])⟩
  · exact ⟨"OFF", by simp [processService, hOn], fun _ => rfl⟩

theorem foldl_rots_frame (cfg : ScheduleConfig) (day : Day) (avail : List Doc)
    (flex : Doc → Nat) (svc : Svc) (hOff : cadenceOn cfg day svc = false) :
    ∀ (svcs : List Svc) (st : SvcState),
      ((svcs.foldl (processService cfg day avail flex) st).rots) svc
        = st.rots svc := by
  intro svcs
  induction svcs with
  | nil => intro st; rfl
  | cons s ss ih =>
    intro st
    simp only [List.foldl_cons]
    rw [ih, processService_rots_frame cfg day avail flex st s svc hOff]

theorem foldl_log_extend (cfg : ScheduleConfig) (day : Day) (avail : List Doc)
    (flex : Doc → Nat) :
    ∀ (svcs : List Svc) (st : SvcState),
      ∃ t, ((svcs.foldl (processService cfg day avail flex) st).log)
        = st.log ++ t := by
  intro svcs
  induction svcs with
  | nil => intro st; exact ⟨[], by simp⟩
  | cons s ss ih =>
    intro st
    obtain ⟨t1, h1⟩ := processService_log_extend cfg day avail flex st s
    obtain ⟨t2, h2⟩ := ih (processService cfg day avail flex st s)
    exact ⟨t1 ++ t2, by simp only [List.foldl_cons]; rw [h2, h1, List.append_assoc]⟩

theorem foldl_log_off (cfg : ScheduleConfig) (day : Day) (avail : List Doc)
    (flex : Doc → Nat) (svc : Svc) (hOff : cadenceOn cfg day svc = false) :
    ∀ (svcs : List Svc) (st : SvcState),
      (∀ o, (svc, o) ∈ st.log → o = "OFF") →
      ∀ o, (svc, o) ∈ ((svcs.foldl (processService cfg day avail flex) st).log) →
        o = "OFF" := by
  intro svcs
  induction svcs with
  | nil => intro st h; exact h
  | cons s ss ih =>
    intro st hinv
    simp only [List.foldl_cons]
    apply ih
    intro o ho
    obtain ⟨o', he, hoff'⟩ := processService_log_entry cfg day avail flex st s
    rw [he] at ho
    rcases List.mem_append.mp ho with hmem | hmem
    · exact hinv o hmem
    · simp only [List.mem_singleton, Prod.mk.injEq] at hmem
      by_cases hsvc : s = svc
      · subst hsvc
        rw [hmem.2]
        exact hoff' hOff
      · exact absurd hmem.1.symm hsvc

theorem foldl_off_mem (cfg : ScheduleConfig) (day : Day) (avail : List Doc)
    (flex : Doc → Nat) (svc : Svc) (hOff : cadenceOn cfg day svc = false) :
    ∀ (svcs : List Svc) (st : SvcState), svc ∈ svcs →
      (svc, "OFF") ∈ ((svcs.foldl (processService cfg day avail flex) st).log) := by
  intro svcs
  induction svcs with
  | nil => intro st h; exact absurd h (List.not_mem_nil _)
  | cons s ss ih =>
    intro st hmem
    simp only [List.foldl_cons]
    by_cases hsvc : svc = s
    · subst hsvc
      obtain ⟨t, ht⟩ := foldl_log_extend cfg day avail flex ss
        (processService cfg day avail flex st svc)
      rw [ht]
      apply List.mem_append_left
      have : (processService cfg day avail flex st svc).log
          = st.log ++ [(svc, "OFF")] := by
        simp [processService, hOff]
      rw [this]
      exact List.mem_append_right _ (List.mem_singleton.mpr rfl)
    · rcases List.mem_cons.mp hmem with h | h
      · exact absurd h hsvc
      · exact ih _ h

/-- Claim C8: for every day and every service whose cadence resolves to OFF,
every outcome the day records for that service is exactly `"OFF"` (and the
service does get an `"OFF"` entry when it is in the service list), and the
service's rotation sequence is left unchanged by the day's processing. -/
theorem claim_C8 (cfg : ScheduleConfig) (st : RunState) (day : Day) (svc : Svc)
    (hOff : cadenceOn cfg day svc = false) :
    (processDay cfg st day).1.rots svc = st.rots svc ∧
    (∀ o, (svc, o) ∈ (processDay cfg st day).2.log → o = "OFF") ∧
    (svc ∈ cfg.services → (svc, "OFF") ∈ (processDay cfg st day).2.log) := by
  have h1 : (processDay cfg st day).1.rots = (dayFold cfg st day).rots := rfl
  have h2 : (processDay cfg st day).2.log = (dayFold cfg st day).log := rfl
  refine ⟨?_, ?_, ?_⟩
  · rw [h1]
    exact foldl_rots_frame cfg day (availableToday cfg day) st.flex svc hOff
      cfg.services _
  · rw [h2]
    exact foldl_log_off cfg day (availableToday cfg day) st.flex svc hOff
      cfg.services _ (by intro o ho; exact absurd ho (List.not_mem_nil _))
  · intro hmem
    rw [h2]
    exact foldl_off_mem cfg day (availableToday cfg day) st.flex svc hOff
      cfg.services _ hmem

/-- Witness for C8: a service whose two-week cadence sets are both empty is
OFF on day 0; its outcome is `"OFF"` and its rotation is untouched. -/
theorem claim_C8_witness :
    ((processDay
        ⟨0, 0, ["S"], ["A"], fun _ _ => false, [("S", ([], []))]⟩
        (initState ⟨0, 0, ["S"], ["A"], fun _ _ => false, [("S", ([], []))]⟩)
        0).1.rots "S"
      = (initState ⟨0, 0, ["S"], ["A"], fun _ _ => false, [("S", ([], []))]⟩).rots "S")
    ∧ ("S", "OFF") ∈
        (processDay
          ⟨0, 0, ["S"], ["A"], fun _ _ => false, [("S", ([], []))]⟩
          (initState ⟨0, 0, ["S"], ["A"], fun _ _ => false, [("S", ([], []))]⟩)
          0).2.log :=
  ⟨(claim_C8 _ _ 0 "S" (by decide)).1,
    (claim_C8 _ _ 0 "S" (by decide)).2.2 (by decide)⟩

/-! ## Claim C9 -/

/-- The configuration produced by a successful `parse_config`. -/
def parsedConfig (p : Payload) : ScheduleConfig :=
  { start_date := p.start_date
    end_date := p.end_date
    services := (p.services.map pyStrip).filter (fun s => s ≠ "")
    doctors := (p.doctors.map pyStrip).filter (fun d => d ≠ "")
    unavailable := p.unavailable
    service_days_2wk := ((p.services.map pyStrip).filter (fun s => s ≠ "")).map
      (fun svc =>
        (svc, ((p.service_days_2wk.lookup svc).getD ([0,1,2,3,4], [0,1,2,3,4])))) }

theorem parse_config_ok (p : Payload)
    (h1 : ¬p.end_date < p.start_date)
    (h2 : ((p.services.map pyStrip).filter (fun s => s ≠ "")) ≠ [])
    (h3 : ((p.doctors.map pyStrip).filter (fun d => d ≠ "")) ≠ []) :
    parse_config p = .ok (parsedConfig p) := by
  simp only [parse_config, parse_basic, if_neg h1]
  rw [if_neg (by simpa [List.isEmpty_iff] using h2),
    if_neg (by simpa [List.isEmpty_iff] using h3)]
  rfl

theorem runDays_map_date (cfg : ScheduleConfig) :
    ∀ (ds : List Day) (st : RunState),
      ((runDays cfg st ds).2).map DayRow.date = ds := by
  intro ds
  induction ds with
  | nil => intro st; rfl
  | cons d tail ih =>
    intro st
    simp only [runDays, List.map_cons]
    rw [show (processDay cfg st d).2.date = d from rfl, ih]

theorem workdays_sorted (s e : Day) : List.Sorted (· < ·) (workdays s e) := by
  unfold workdays
  apply List.Pairwise.filter
  exact (List.pairwise_lt_range _).map _ (fun a b h => Nat.add_lt_add_left h s)

/-- Claim C9: for every valid request (end ≥ start, non-empty validated
service and doctor lists), the run succeeds and produces exactly one row per
Monday-through-Friday date in the inclusive range `[start, end]`, with the
rows in ascending date order. -/
theorem claim_C9 (p : Payload)
    (h1 : p.start_date ≤ p.end_date)
    (h2 : ((p.services.map pyStrip).filter (fun s => s ≠ "")) ≠ [])
    (h3 : ((p.doctors.map pyStrip).filter (fun d => d ≠ "")) ≠ []) :
    ∃ rows, generate p = .ok rows ∧
      rows.map DayRow.date = workdays p.start_date p.end_date ∧
      rows.length = (workdays p.start_date p.end_date).length ∧
      List.Sorted (· < ·) (rows.map DayRow.date) := by
  have hnl : ¬p.end_date < p.start_date := Nat.not_lt.mpr h1
  have hok : generate p
      = .ok ((runDays (parsedConfig p) (initState (parsedConfig p))
          (workdays p.start_date p.end_date)).2) := by
    unfold generate
    rw [parse_config_ok p hnl h2 h3]
    rfl
  refine ⟨_, hok, ?_, ?_, ?_⟩
  · exact runDays_map_date (parsedConfig p) _ _
  · have hlen := congrArg List.length
      (runDays_map_date (parsedConfig p) (workdays p.start_date p.end_date)
        (initState (parsedConfig p)))
    rwa [List.length_map] at hlen
  · rw [runDays_map_date (parsedConfig p) _ _]
    exact workdays_sorted _ _

/-- Witness for C9: a concrete Monday-to-Friday request with one service and
three doctors. -/
theorem claim_C9_witness :
    ∃ rows,
      generate
        { start_date := 0, end_date := 4, services := ["S"],
          doctors := ["A", "B", "C"], unavailable := fun _ _ => false,
          service_days_2wk := [("S", ([0,1,2,3,4], [0,1,2,3,4]))] }
        = .ok rows ∧
      rows.map DayRow.date = workdays 0 4 ∧
      rows.length = (workdays 0 4).length ∧
      List.Sorted (· < ·) (rows.map DayRow.date) :=
  claim_C9 _ (by decide) (by decide) (by decide)

/-! ## Claim C10 -/

/-- Claim C10: for every day, the flexible-doctor list recorded in the day's
row is sorted in ascending lexicographic string order, for every
configuration (hence regardless of the order of the input doctor list). -/
theorem claim_C10 (cfg : ScheduleConfig) (st : RunState) (day : Day) :
    List.Sorted (fun a b => a ≤ b) ((processDay cfg st day).2.flexible) := by
  have h : (processDay cfg st day).2.flexible = flexibleToday cfg st day := rfl
  rw [h]
  unfold flexibleToday
  exact List.sorted_insertionSort _ _

/-! ## Claim C2 -/

/-- Scenario B of the spec: one service, two doctors `A` and `B`, default
cadence (Mon–Fri in both weeks), run over three working days starting on a
Monday (days 0, 1, 2), with `A` unavailable exactly on the second working
day. -/
def scenB : Payload :=
  { start_date := 0
    end_date := 2
    services := ["S"]
    doctors := ["A", "B"]
    unavailable := fun d day => d == "A" && day == 1
    service_days_2wk := [("S", ([0,1,2,3,4], [0,1,2,3,4]))] }

/-- Claim C2 (counterexample): in Scenario B the code gives day 2's outcome
`"B"` as claimed, but day 3's outcome is `"B"` again — not `"A"` — because
`B`'s flexible count (1, accrued on day 1) outranks `A`'s rotation position;
and `A`'s flexible count does not stay 0: `A` is flexible on day 3, ending
with count 1. -/
theorem claim_C2_counterexample :
    ((generate scenB).toOption.map
        (fun rows => rows.map (fun r => (r.log, r.flexible)))
      = some [([("S", "A")], ["B"]), ([("S", "B")], []), ([("S", "B")], ["A"])])
    ∧ flexAfter scenB 3 "A" = some 1
    ∧ ([("S", "B")] : List (Svc × String)) ≠ [("S", "A")]
    ∧ (some 1 : Option Nat) ≠ some 0 :=
  ⟨by rfl, by rfl, by decide, by decide⟩

/-- Claim C2 (amended): in Scenario B, day 2's outcome is `"B"`; day 3's
outcome is `"B"` again, because `B`'s flexible count of 1 (accrued on day 1)
outranks `A`'s earlier rotation position; `A`'s flexible count stays 0
through the first two days and becomes 1 after day 3, when `A` is available
but unassigned. -/
theorem claim_C2_amended_run :
    ((generate scenB).toOption.map
        (fun rows => rows.map (fun r => (r.log, r.flexible)))
      = some [([("S", "A")], ["B"]), ([("S", "B")], []), ([("S", "B")], ["A"])])
    ∧ flexAfter scenB 1 "A" = some 0
    ∧ flexAfter scenB 2 "A" = some 0
    ∧ flexAfter scenB 3 "A" = some 1 :=
  ⟨by rfl, by rfl, by rfl, by rfl⟩

end DocSched
